import Mathlib

/-!
Verification of the N170 picture scrambler
(`psychopy_experiments/n170/picture_scrambler.py`) and of the trial-shuffling
routine of the bundle-pricing task
(`psychopy_experiments/bundle_pricing/bundle_pricing.py`).

Machine floats are modelled as exact elements of a linear ordered field
(`ℝ` for the Fourier pipeline, arbitrary `α` for the histogram matcher so
that concrete witnesses can run on `ℚ`).  `numpy` arrays of shape `H×W`
become functions `Fin H → Fin W → ℝ`; ravelled arrays become `List α` in
row-major order, exactly as `np.ravel` produces them.
-/

set_option maxHeartbeats 1000000

namespace Scrambler

variable {α : Type*} [LinearOrderedField α]

/-- `np.unique(v)` of the values of a list: the sorted list of distinct
values.  (`np.unique` returns sorted unique values.) -/
def sortedUnique (l : List α) : List α :=
  (l.insertionSort (· ≤ ·)).dedup

/-- `np.cumsum` on a list of naturals: running totals, no leading zero. -/
def cumsum : List ℕ → List ℕ
  | [] => []
  | a :: rest => a :: (cumsum rest).map (a + ·)

/-- The `return_counts=True` part of `np.unique`: for each distinct value
(in sorted order) the number of occurrences in `l`. -/
def uniqueCounts (l : List α) : List ℕ :=
  (sortedUnique l).map fun v => l.count v

/-- `np.cumsum(counts).astype(np.float64) / size`: empirical CDF values of
`l` sampled at its distinct values, in sorted order. -/
def quantileList (l : List α) : List α :=
  (cumsum (uniqueCounts l)).map fun (c : ℕ) => (c : α) / (l.length : α)

/-- `np.interp(x, xp, fp)` for a single query point `x`: clamp to `fp`'s
endpoints outside the node range, piecewise-linear interpolation between
consecutive nodes inside it.  (Defined for any node list; the source always
calls it with `xp` strictly increasing and `fp` of the same length.) -/
def interp (x : α) : List α → List α → α
  | [], _ => 0
  | _ :: _, [] => 0
  | [x0], f0 :: _ =>
      -- a single node: `np.interp` returns `fp[0]` for every query
      if x ≤ x0 then f0 else f0
  | _ :: _ :: _, [f0] => f0
  | x0 :: x1 :: xp, f0 :: f1 :: fp =>
      if x ≤ x0 then f0
      else if x ≤ x1 then f0 + (x - x0) * (f1 - f0) / (x1 - x0)
      else interp x (x1 :: xp) (f1 :: fp)

/-- `hist_match_channel(src, tmpl)` on ravelled (1-D) data: the source's
order-statistic histogram matching.  `s_values, s_idx, s_counts =
np.unique(s, ...)`; quantiles are cumulative counts over the array size;
`interp_t_values = np.interp(s_quantiles, t_quantiles, t_values)`; the
result maps every source pixel to the interpolated template value at its
own value's index (`interp_t_values[s_idx]`). -/
def hist_match_channel (src tmpl : List α) : List α :=
  let s_values := sortedUnique src
  let t_values := sortedUnique tmpl
  let s_quantiles := quantileList src
  let t_quantiles := quantileList tmpl
  let interp_t_values := s_quantiles.map fun q => interp q t_quantiles t_values
  src.map fun x => interp_t_values.getD (s_values.indexOf x) 0

/-- `np.clip(v, 0.0, 1.0)` on a single value. -/
def clip01 (v : α) : α := max 0 (min 1 v)

/-- `wrap_phase(ph) = (ph + np.pi) % (2*np.pi) - np.pi`.  `numpy`'s `%` on
reals is `x - y*floor(x/y)`. -/
noncomputable def wrap_phase (ph : ℝ) : ℝ :=
  (ph + Real.pi) - 2 * Real.pi * (⌊(ph + Real.pi) / (2 * Real.pi)⌋ : ℤ) - Real.pi

/-- The state of `np.random.default_rng(...)`: an abstract stream of unit
uniform variates in `[0,1)` together with the position of the next draw. -/
structure RngState where
  stream : ℕ → ℝ
  pos : ℕ

/-- `rng.uniform(low, high, size=(H, W))`: one matrix of `H*W` fresh draws
(row-major), each `low + (high-low) * u` for the next unit variate `u`;
the generator advances by `H*W` positions. -/
def rngUniformMatrix (low high : ℝ) (H W : ℕ) (g : RngState) :
    (Fin H → Fin W → ℝ) × RngState :=
  (fun i j => low + (high - low) * g.stream (g.pos + i.val * W + j.val),
   ⟨g.stream, g.pos + H * W⟩)

/-- `np.fft.fft2`: `X[k,l] = Σ_{m,n} x[m,n] · e^{-2πi(km/H + ln/W)}`. -/
noncomputable def fft2 (H W : ℕ) (x : Fin H → Fin W → ℂ) :
    Fin H → Fin W → ℂ := fun k l =>
  ∑ m : Fin H, ∑ n : Fin W,
    x m n * Complex.exp (-(2 * (Real.pi : ℂ) * Complex.I) *
      ((k.val : ℂ) * (m.val : ℂ) / (H : ℂ) + (l.val : ℂ) * (n.val : ℂ) / (W : ℂ)))

/-- `np.fft.ifft2`: `x[m,n] = (1/(HW)) Σ_{k,l} X[k,l] · e^{2πi(km/H + ln/W)}`. -/
noncomputable def ifft2 (H W : ℕ) (X : Fin H → Fin W → ℂ) :
    Fin H → Fin W → ℂ := fun m n =>
  (1 / ((H : ℂ) * (W : ℂ))) * ∑ k : Fin H, ∑ l : Fin W,
    X k l * Complex.exp ((2 * (Real.pi : ℂ) * Complex.I) *
      ((k.val : ℂ) * (m.val : ℂ) / (H : ℂ) + (l.val : ℂ) * (n.val : ℂ) / (W : ℂ)))

/-- The per-channel body of `phase_scramble_color_shared`'s loop: take the
2-D transform, keep its magnitude `A`, mix the original phase with the
given random phase field, reconstruct by `ifft2`, return the real part. -/
noncomputable def scrambleChannel (H W : ℕ) (x : Fin H → Fin W → ℝ)
    (phi_rand : Fin H → Fin W → ℝ) (alpha : ℝ) : Fin H → Fin W → ℝ :=
  let F := fft2 H W fun m n => (x m n : ℂ)
  let A := fun k l => Complex.abs (F k l)
  let phi_orig := fun k l => Complex.arg (F k l)
  let phi_mix := fun k l =>
    wrap_phase (alpha * phi_orig k l + (1 - alpha) * phi_rand k l)
  fun m n =>
    (ifft2 H W (fun k l => (A k l : ℂ) * Complex.exp ((phi_mix k l : ℂ) * Complex.I)) m n).re

/-- `phase_scramble_color_shared(img01, alpha, rng)`: draw ONE `H×W`
random phase field `phi_rand = rng.uniform(-π, π, size=(H, W))`, then
scramble each of the three channels with that same shared field. -/
noncomputable def phase_scramble_color_shared (H W : ℕ)
    (img01 : Fin H → Fin W → Fin 3 → ℝ) (alpha : ℝ) (g : RngState) :
    (Fin H → Fin W → Fin 3 → ℝ) × RngState :=
  let draw := rngUniformMatrix (-Real.pi) Real.pi H W g
  let phi_rand := draw.1
  (fun m n c => scrambleChannel H W (fun a b => img01 a b c) phi_rand alpha m n,
   draw.2)

/-- `np.ravel` of an `H×W` array: its values as a row-major list. -/
def ravel {β : Type*} (H W : ℕ) (x : Fin H → Fin W → β) : List β :=
  (List.finRange H).flatMap fun m => (List.finRange W).map fun n => x m n

/-- `hist_match_channel` on 2-D arrays: ravel both, match, reshape back
(`matched.reshape(src.shape)`, row-major). -/
def hist_match_channel2D (H W : ℕ) (src tmpl : Fin H → Fin W → α) :
    Fin H → Fin W → α :=
  let matched := hist_match_channel (ravel H W src) (ravel H W tmpl)
  fun m n => matched.getD (m.val * W + n.val) 0

/-- `ALPHA = 0.0`, the canonical fully-scrambled mix coefficient. -/
noncomputable def ALPHA : ℝ := 0

/-- `RANDOM_SEED = 1234`. -/
def RANDOM_SEED : ℕ := 1234

/-- The per-image body of `batch`: shared-phase scramble, per-channel
histogram matching back to the original channel, clip to `[0,1]`. -/
noncomputable def processImage (H W : ℕ) (x : Fin H → Fin W → Fin 3 → ℝ)
    (alpha : ℝ) (g : RngState) : (Fin H → Fin W → Fin 3 → ℝ) × RngState :=
  let scr := phase_scramble_color_shared H W x alpha g
  let x_s := fun (c : Fin 3) =>
    hist_match_channel2D H W (fun m n => scr.1 m n c) (fun m n => x m n c)
  (fun m n c => clip01 (x_s c m n), scr.2)

/-- An in-memory decoded image: `H×W×3` samples in `[0,1]`. -/
structure ImageData where
  H : ℕ
  W : ℕ
  px : Fin H → Fin W → Fin 3 → ℝ

/-- The bytes `save_rgb01` writes: `(clip(arr,0,1) * 255).astype(np.uint8)`
per sample (`astype` truncates, which on `[0,255]` is the floor). -/
structure OutImage where
  H : ℕ
  W : ℕ
  px : Fin H → Fin W → Fin 3 → ℤ

/-- One sample of `save_rgb01`'s quantization. -/
noncomputable def toByte (v : ℝ) : ℤ := ⌊clip01 v * 255⌋

/-- `save_rgb01(path, arr)` without the codec: the quantized pixel grid. -/
noncomputable def saveImage (H W : ℕ) (y : Fin H → Fin W → Fin 3 → ℝ) : OutImage :=
  ⟨H, W, fun m n c => toByte (y m n c)⟩

/-- An input file: its filename stem and what `Image.open(...).convert`
produces — a decoded image, or a decoding error with its reason. -/
structure SrcFile where
  stem : String
  content : Except String ImageData

/-- `is_image_ok(path)`: `True` exactly when the file decodes. -/
def is_image_ok (f : SrcFile) : Bool :=
  match f.content with
  | .ok _ => true
  | .error _ => false

/-- Output naming: `idx = stem.split('_')[-1]`, then
`scrambled_face_{idx}.jpg` or `scrambled_car_{idx}.jpg` by label. -/
def outName (label stem : String) : String :=
  let idx := (stem.splitOn "_").getLastD ""
  if label == "face" then "scrambled_face_" ++ idx ++ ".jpg"
  else "scrambled_car_" ++ idx ++ ".jpg"

/-- `batch(paths, label, rng)`: process the files in order, threading the
one shared generator.  A file whose load fails is skipped with a
`[SKIP]` log line and the batch continues; a loaded file is scrambled
(`alpha = ALPHA`), histogram-matched, clipped, quantized and recorded as
an output under its derived name.  Returns (outputs, skip logs, final
generator state); the function is total, so no error escapes it. -/
noncomputable def batch :
    List SrcFile → String → RngState →
    List (String × OutImage) × List String × RngState
  | [], _, g => ([], [], g)
  | f :: rest, label, g =>
    match f.content with
    | .error reason =>
        let r := batch rest label g
        (r.1, ("[SKIP] " ++ f.stem ++ " (" ++ reason ++ ")") :: r.2.1, r.2.2)
    | .ok img =>
        let p := processImage img.H img.W img.px ALPHA g
        let r := batch rest label p.2
        ((outName label f.stem, saveImage img.H img.W p.1) :: r.1, r.2.1, r.2.2)

/-- The `__main__` flow: filter each sorted class list by `is_image_ok`;
if both filtered lists are empty, abort with `SystemExit` before creating
the generator or processing anything; otherwise seed one generator from
`RANDOM_SEED` and run the face batch then the car batch with it.
`seedStream` maps a seed to the generator's variate stream (the same seed
always yields the same stream, which is `default_rng`'s contract). -/
noncomputable def mainRun (seedStream : ℕ → ℕ → ℝ)
    (all_faces all_cars : List SrcFile) :
    Except String (List (String × OutImage) × List String) :=
  let faces := all_faces.filter is_image_ok
  let cars := all_cars.filter is_image_ok
  if faces.isEmpty && cars.isEmpty then
    Except.error "No valid inputs"
  else
    let g0 : RngState := ⟨seedStream RANDOM_SEED, 0⟩
    let rF := batch faces "face" g0
    let rC := batch cars "car" rF.2.2
    Except.ok (rF.1 ++ rC.1, rF.2.1 ++ rC.2.1)

end Scrambler

namespace Bundle

variable {τ : Type*}

/-- The Python in-place swap `trials[i], trials[j] = trials[j], trials[i]`
(identity when an index is out of range; the source only swaps valid
indices). -/
def swapL (l : List τ) (i j : ℕ) : List τ :=
  if h : i < l.length ∧ j < l.length then
    (l.set i (l.get ⟨j, h.2⟩)).set j (l.get ⟨i, h.1⟩)
  else l

/-- `has_violation_at(trials, i)`: `False` out of range; otherwise `True`
iff some offset in `{-2,-1,1,2}` lands in range on a different position
holding the same `bundle_id`.  `bid` extracts the `bundle_id` field. -/
def has_violation_at (bid : τ → ℕ) (l : List τ) (i : ℤ) : Bool :=
  if i < 0 ∨ (l.length : ℤ) ≤ i then false
  else
    ([-2, -1, 1, 2] : List ℤ).any fun off =>
      let j := i + off
      if 0 ≤ j ∧ j < (l.length : ℤ) ∧ j ≠ i then
        if |off| ≤ 2 then
          match l.get? j.toNat, l.get? i.toNat with
          | some a, some b => bid a == bid b
          | _, _ => false
        else false
      else false

/-- `find_valid_swap(trials, i)`.  The source shuffles `indices =
list(range(len(trials)))` and walks it; `order` is that shuffled index
list (the embedding of the `random.shuffle` draw).  Candidates within
distance 2 of `i` are skipped; otherwise the swap is tried on a copy and
accepted iff none of the ten positions around `i` and `j` violates the
constraint afterwards. -/
def find_valid_swap (bid : τ → ℕ) (l : List τ) (i : ℤ) :
    List ℕ → Option ℕ
  | [] => none
  | j :: rest =>
    if |i - (j : ℤ)| ≤ 2 then find_valid_swap bid l i rest
    else
      let swapped := swapL l i.toNat j
      let ok := ([i - 2, i - 1, i, i + 1, i + 2,
                  (j : ℤ) - 2, (j : ℤ) - 1, (j : ℤ), (j : ℤ) + 1, (j : ℤ) + 2] : List ℤ).all
        fun pos =>
          if 0 ≤ pos ∧ pos < (swapped.length : ℤ) then
            !(has_violation_at bid swapped pos)
          else true
      if ok then some j else find_valid_swap bid l i rest

/-- Fisher–Yates tail of `random.shuffle`: at step `i` (from `len-1` down
to `1`) swap position `i` with `choice i % (i+1)` (the embedding of
`randbelow(i+1)`). -/
def fyAux (choice : ℕ → ℕ) : ℕ → List τ → List τ
  | 0, l => l
  | i + 1, l => fyAux choice i (swapL l (i + 1) (choice (i + 1) % (i + 2)))

/-- `random.shuffle(x)` as a pure function of the shuffle draws. -/
def shuffleList (choice : ℕ → ℕ) (l : List τ) : List τ :=
  fyAux choice (l.length - 1) l

/-- One repair pass of `shuffle_with_constraint`: walk `i` over
`range(len(shuffled))`; at each violating position ask `find_valid_swap`
(whose candidate order for position `i` is `orders i`) and apply the swap
when one is found. -/
def repairPass (bid : τ → ℕ) (orders : ℕ → List ℕ) (l : List τ) : List τ :=
  (List.range l.length).foldl
    (fun acc (i : ℕ) =>
      if has_violation_at bid acc (i : ℤ) then
        match find_valid_swap bid acc (i : ℤ) (orders i) with
        | some j => swapL acc i j
        | none => acc
      else acc) l

/-- The all-clear check after a pass: no position violates. -/
def allOk (bid : τ → ℕ) (l : List τ) : Bool :=
  (List.range l.length).all fun i => !(has_violation_at bid l (i : ℤ))

/-- The repair-pass loop: up to the given number of passes, stopping early
when a pass ends with no violation; returns the current list either way
(the source logs a warning when passes run out but still returns). -/
def swcLoop (bid : τ → ℕ) (orders : ℕ → ℕ → List ℕ) :
    ℕ → ℕ → List τ → List τ
  | 0, _, l => l
  | n + 1, passIdx, l =>
      let l2 := repairPass bid (orders passIdx) l
      if allOk bid l2 then l2 else swcLoop bid orders n (passIdx + 1) l2

/-- `shuffle_with_constraint(trials, max_repair_passes=50)`: shuffle a
copy, then run up to 50 repair passes.  `choice` embeds the
`random.shuffle` draws of the initial shuffle and `orders` the per-call
shuffled candidate lists inside `find_valid_swap`. -/
def shuffle_with_constraint (bid : τ → ℕ) (trials : List τ)
    (choice : ℕ → ℕ) (orders : ℕ → ℕ → List ℕ) : List τ :=
  swcLoop bid orders 50 0 (shuffleList choice trials)

end Bundle

namespace Scrambler

/-! ### Phase wrapping (claim C8) -/

/-- `wrap_phase` rewritten through `Int.fract`. -/
theorem wrap_phase_eq_fract (ph : ℝ) :
    wrap_phase ph =
      2 * Real.pi * Int.fract ((ph + Real.pi) / (2 * Real.pi)) - Real.pi := by
  have h2pi : (2 : ℝ) * Real.pi ≠ 0 := by positivity
  unfold wrap_phase Int.fract
  field_simp

/-- The wrapped value always lies in `[-π, π)`. -/
theorem wrap_phase_mem (ph : ℝ) :
    -Real.pi ≤ wrap_phase ph ∧ wrap_phase ph < Real.pi := by
  have hpi : (0 : ℝ) < Real.pi := Real.pi_pos
  rw [wrap_phase_eq_fract]
  constructor
  · nlinarith [Int.fract_nonneg ((ph + Real.pi) / (2 * Real.pi))]
  · nlinarith [Int.fract_lt_one ((ph + Real.pi) / (2 * Real.pi))]

/-- Inputs already in `[-π, π)` are fixed by `wrap_phase`. -/
theorem wrap_phase_eq_self {ph : ℝ} (h1 : -Real.pi ≤ ph) (h2 : ph < Real.pi) :
    wrap_phase ph = ph := by
  have hpi : (0 : ℝ) < Real.pi := Real.pi_pos
  have hfl : ⌊(ph + Real.pi) / (2 * Real.pi)⌋ = 0 := by
    rw [Int.floor_eq_zero_iff]
    constructor
    · exact div_nonneg (by linarith) (by positivity)
    · rw [div_lt_one (by positivity)]; linarith
  unfold wrap_phase
  rw [hfl]
  push_cast
  ring

/-- C8, counterexample: at input `π` the wrap function returns `-π`, which
is not in the half-open interval `(-π, π]` the claim names. -/
theorem C8_wrap_at_pi_leaves_Ioc :
    wrap_phase Real.pi = -Real.pi ∧ wrap_phase Real.pi ∉ Set.Ioc (-Real.pi) Real.pi := by
  have hpi : (0 : ℝ) < Real.pi := Real.pi_pos
  have hval : wrap_phase Real.pi = -Real.pi := by
    have hfl : ⌊(Real.pi + Real.pi) / (2 * Real.pi)⌋ = 1 := by
      have : (Real.pi + Real.pi) / (2 * Real.pi) = 1 := by
        field_simp; ring
      rw [this]; exact Int.floor_one
    unfold wrap_phase
    rw [hfl]
    push_cast
    ring
  refine ⟨hval, ?_⟩
  rw [hval]
  rintro ⟨hlt, -⟩
  exact lt_irrefl _ hlt

/-- C8, amended: every wrapped phase lies in `[-π, π)`, and every entry of
the random phase matrix `rng.uniform(-π, π, (H, W))` lies in `[-π, π)`
whenever the generator's unit variates lie in `[0, 1)` (`numpy`'s
`uniform(low, high)` samples the half-open interval `[low, high)`). -/
theorem C8_phase_range_amended :
    (∀ ph : ℝ, -Real.pi ≤ wrap_phase ph ∧ wrap_phase ph < Real.pi) ∧
    (∀ (H W : ℕ) (g : RngState), (∀ t, 0 ≤ g.stream t ∧ g.stream t < 1) →
      ∀ (i : Fin H) (j : Fin W),
        -Real.pi ≤ (rngUniformMatrix (-Real.pi) Real.pi H W g).1 i j ∧
        (rngUniformMatrix (-Real.pi) Real.pi H W g).1 i j < Real.pi) := by
  have hpi : (0 : ℝ) < Real.pi := Real.pi_pos
  refine ⟨wrap_phase_mem, fun H W g hu i j => ?_⟩
  obtain ⟨h0, h1⟩ := hu (g.pos + i.val * W + j.val)
  unfold rngUniformMatrix
  constructor
  · simp only
    nlinarith
  · simp only
    nlinarith

/-- C8, witness for the amended theorem: concrete instantiation at `ph = 0`
and an all-zero variate stream on a `1×1` matrix. -/
theorem C8_phase_range_amended_witness :
    (-Real.pi ≤ wrap_phase 0 ∧ wrap_phase 0 < Real.pi) ∧
    (-Real.pi ≤ (rngUniformMatrix (-Real.pi) Real.pi 1 1 ⟨fun _ => 0, 0⟩).1 0 0 ∧
      (rngUniformMatrix (-Real.pi) Real.pi 1 1 ⟨fun _ => 0, 0⟩).1 0 0 < Real.pi) :=
  ⟨C8_phase_range_amended.1 0,
   C8_phase_range_amended.2 1 1 ⟨fun _ => 0, 0⟩
     (fun _ => ⟨le_refl 0, zero_lt_one⟩) 0 0⟩

/-! ### Shared phase field and generator accounting (claim C3) -/

/-- C3: per processed image exactly one `H×W` phase matrix is drawn (the
generator advances by `H·W` draws, not `3·H·W`), and that one matrix is
the phase field fed to the scrambling of each of the three channels. -/
theorem C3_single_shared_phase_draw (H W : ℕ)
    (img : Fin H → Fin W → Fin 3 → ℝ) (alpha : ℝ) (g : RngState) :
    (phase_scramble_color_shared H W img alpha g).2.pos = g.pos + H * W ∧
    ∃ phi : Fin H → Fin W → ℝ,
      phi = (rngUniformMatrix (-Real.pi) Real.pi H W g).1 ∧
      ∀ c : Fin 3,
        (fun m n => (phase_scramble_color_shared H W img alpha g).1 m n c) =
          scrambleChannel H W (fun m n => img m n c) phi alpha :=
  ⟨rfl, _, rfl, fun _ => rfl⟩

/-! ### Batch behaviour (claims C5, C6, C7) -/

/-- Output and skip counts of `batch`: one output per readable file, one
skip log per unreadable file, for every generator state. -/
theorem batch_counts (label : String) : ∀ (files : List SrcFile) (g : RngState),
    (batch files label g).1.length = (files.filter is_image_ok).length ∧
    (batch files label g).2.1.length =
      (files.filter (fun f => !(is_image_ok f))).length := by
  intro files
  induction files with
  | nil => intro g; simp [batch]
  | cons f rest ih =>
    intro g
    rcases hc : f.content with reason | img
    · have hok : is_image_ok f = false := by unfold is_image_ok; rw [hc]
      simp [batch, hc, hok, List.filter_cons, ih]
    · have hok : is_image_ok f = true := by unfold is_image_ok; rw [hc]
      simp [batch, hc, hok, List.filter_cons, ih]

/-- C6: a batch whose file list holds exactly one corrupt file among `N`
readable ones finishes with `N` outputs and exactly one skip log.  (`batch`
is a total function — the load failure is consumed inside it, so no
exception escapes the call.) -/
theorem C6_graceful_skip (files : List SrcFile) (label : String) (g : RngState)
    (N : ℕ) (hN : (files.filter is_image_ok).length = N)
    (h1 : (files.filter (fun f => !(is_image_ok f))).length = 1) :
    (batch files label g).1.length = N ∧
    (batch files label g).2.1.length = 1 := by
  obtain ⟨ho, hs⟩ := batch_counts label files g
  exact ⟨ho.trans hN, hs.trans h1⟩

/-- C6, witness: one readable file and one corrupt file, `N = 1`. -/
theorem C6_graceful_skip_witness :
    (([⟨"face_1", .ok ⟨1, 1, fun _ _ _ => 0⟩⟩,
       ⟨"face_2", .error "bad"⟩] : List SrcFile).filter is_image_ok).length = 1 ∧
    (([⟨"face_1", .ok ⟨1, 1, fun _ _ _ => 0⟩⟩,
       ⟨"face_2", .error "bad"⟩] : List SrcFile).filter
        (fun f => !(is_image_ok f))).length = 1 ∧
    (batch [⟨"face_1", .ok ⟨1, 1, fun _ _ _ => 0⟩⟩,
            ⟨"face_2", .error "bad"⟩] "face" ⟨fun _ => 0, 0⟩).1.length = 1 ∧
    (batch [⟨"face_1", .ok ⟨1, 1, fun _ _ _ => 0⟩⟩,
            ⟨"face_2", .error "bad"⟩] "face" ⟨fun _ => 0, 0⟩).2.1.length = 1 := by
  refine ⟨rfl, rfl, ?_⟩
  have h := C6_graceful_skip
    [⟨"face_1", .ok ⟨1, 1, fun _ _ _ => 0⟩⟩, ⟨"face_2", .error "bad"⟩]
    "face" ⟨fun _ => 0, 0⟩ 1 rfl rfl
  exact h

/-- C7: when the readable-file filter leaves both class lists empty, the
run aborts with the diagnostic before creating a generator or processing
anything — the result is the bare error, carrying no outputs. -/
theorem C7_empty_input_aborts (s : ℕ → ℕ → ℝ) (all_faces all_cars : List SrcFile)
    (hf : all_faces.filter is_image_ok = [])
    (hc : all_cars.filter is_image_ok = []) :
    mainRun s all_faces all_cars = Except.error "No valid inputs" := by
  unfold mainRun
  rw [hf, hc]
  rfl

/-- C7, witness: two corrupt faces, no cars. -/
theorem C7_empty_input_aborts_witness :
    (([⟨"face_1", .error "bad"⟩] : List SrcFile).filter is_image_ok = []) ∧
    (([] : List SrcFile).filter is_image_ok = []) ∧
    mainRun (fun _ _ => 0) [⟨"face_1", .error "bad"⟩] [] =
      Except.error "No valid inputs" :=
  ⟨rfl, rfl, C7_empty_input_aborts (fun _ _ => 0) [⟨"face_1", .error "bad"⟩] [] rfl rfl⟩

/-- C5: the whole run is a pure function of the seed-indexed variate
stream and the two ordered input lists; two runs agreeing on those agree
on every output byte.  (The embedding threads the single generator from
the face batch into the car batch exactly as the source does, so this
also covers the cross-class coupling of the draws.) -/
theorem C5_determinism (s1 s2 : ℕ → ℕ → ℝ) (f1 f2 c1 c2 : List SrcFile)
    (hs : s1 = s2) (hf : f1 = f2) (hc : c1 = c2) :
    mainRun s1 f1 c1 = mainRun s2 f2 c2 := by
  subst hs hf hc
  rfl

/-- C5, witness: a concrete stream and concrete one-element batches. -/
theorem C5_determinism_witness :
    mainRun (fun _ _ => 0) [⟨"face_1", .ok ⟨1, 1, fun _ _ _ => 0⟩⟩] [] =
      mainRun (fun _ _ => 0) [⟨"face_1", .ok ⟨1, 1, fun _ _ _ => 0⟩⟩] [] :=
  C5_determinism _ _ _ _ _ _ rfl rfl rfl

end Scrambler

namespace Bundle

variable {τ : Type*}

/-- Pulling an element to the front against a replacement is a
permutation: `t[m] :: t.set m a ~ a :: t`. -/
theorem get_cons_set_perm :
    ∀ (t : List τ) (m : ℕ) (hm : m < t.length) (a : τ),
      List.Perm (t.get ⟨m, hm⟩ :: t.set m a) (a :: t) := by
  intro t
  induction t with
  | nil => intro m hm a; exact absurd hm (by simp)
  | cons b r ih =>
    intro m hm a
    cases m with
    | zero => simpa using List.Perm.swap a b r
    | succ m =>
      have hm' : m < r.length := by simpa using hm
      have e1 : (b :: r).get ⟨m + 1, hm⟩ = r.get ⟨m, hm'⟩ := rfl
      have e2 : (b :: r).set (m + 1) a = b :: r.set m a := rfl
      rw [e1, e2]
      exact (List.Perm.swap (r.get ⟨m, hm'⟩) b (r.set m a)).symm.trans
        (((ih m hm' a).cons b).trans (List.Perm.swap a b r))

/-- A double `set` performing a swap of two valid positions is a
permutation of the original list. -/
theorem set_set_perm :
    ∀ (l : List τ) (i j : ℕ) (hi : i < l.length) (hj : j < l.length),
      List.Perm ((l.set i (l.get ⟨j, hj⟩)).set j (l.get ⟨i, hi⟩)) l := by
  intro l
  induction l with
  | nil => intro i j hi _; exact absurd hi (by simp)
  | cons a t ih =>
    intro i j hi hj
    cases i with
    | zero =>
      cases j with
      | zero => simp
      | succ m =>
        have hm : m < t.length := by simpa using hj
        simpa using get_cons_set_perm t m hm a
    | succ k =>
      cases j with
      | zero =>
        have hk : k < t.length := by simpa using hi
        simpa using get_cons_set_perm t k hk a
      | succ m =>
        have hk : k < t.length := by simpa using hi
        have hm : m < t.length := by simpa using hj
        simpa using (ih k m hk hm).cons a

/-- `swapL` always returns a permutation of its input. -/
theorem swapL_perm (l : List τ) (i j : ℕ) : List.Perm (swapL l i j) l := by
  unfold swapL
  split
  · next h => exact set_set_perm l i j h.1 h.2
  · exact List.Perm.refl l

/-- The Fisher–Yates tail keeps the multiset. -/
theorem fyAux_perm (choice : ℕ → ℕ) :
    ∀ (n : ℕ) (l : List τ), List.Perm (fyAux choice n l) l := by
  intro n
  induction n with
  | zero => intro l; exact List.Perm.refl l
  | succ i ih =>
    intro l
    exact (ih _).trans (swapL_perm l (i + 1) (choice (i + 1) % (i + 2)))

/-- `random.shuffle` keeps the multiset. -/
theorem shuffleList_perm (choice : ℕ → ℕ) (l : List τ) :
    List.Perm (shuffleList choice l) l :=
  fyAux_perm choice (l.length - 1) l

/-- A left fold whose every step returns a permutation of its accumulator
returns a permutation of the initial accumulator. -/
theorem foldl_perm_of_step_perm {σ : Type*} (f : List τ → σ → List τ)
    (hf : ∀ acc s, List.Perm (f acc s) acc) :
    ∀ (xs : List σ) (acc : List τ), List.Perm (xs.foldl f acc) acc := by
  intro xs
  induction xs with
  | nil => intro acc; exact List.Perm.refl acc
  | cons s rest ih =>
    intro acc
    exact (ih (f acc s)).trans (hf acc s)

/-- One repair pass keeps the multiset: every step is a swap or a no-op. -/
theorem repairPass_perm (bid : τ → ℕ) (orders : ℕ → List ℕ) (l : List τ) :
    List.Perm (repairPass bid orders l) l := by
  unfold repairPass
  refine foldl_perm_of_step_perm _ ?_ _ _
  intro acc i
  by_cases hv : has_violation_at bid acc (i : ℤ)
  · simp only [hv, if_true]
    cases hfs : find_valid_swap bid acc (i : ℤ) (orders i) with
    | none => exact List.Perm.refl acc
    | some j => exact swapL_perm acc i j
  · simp only [hv]
    simp

/-- The whole repair loop keeps the multiset. -/
theorem swcLoop_perm (bid : τ → ℕ) (orders : ℕ → ℕ → List ℕ) :
    ∀ (n passIdx : ℕ) (l : List τ), List.Perm (swcLoop bid orders n passIdx l) l := by
  intro n
  induction n with
  | zero => intro passIdx l; exact List.Perm.refl l
  | succ m ih =>
    intro passIdx l
    simp only [swcLoop]
    by_cases hok : allOk bid (repairPass bid (orders passIdx) l)
    · simpa [hok] using repairPass_perm bid (orders passIdx) l
    · simpa [hok] using (ih (passIdx + 1) _).trans (repairPass_perm bid (orders passIdx) l)

/-- C10: `shuffle_with_constraint` returns a permutation of its input —
same length and same multiset of trials — whatever the shuffle draws and
candidate orders, and whether or not the constraint is met when the
repair-pass budget runs out. -/
theorem C10_shuffle_returns_permutation (bid : τ → ℕ) (trials : List τ)
    (choice : ℕ → ℕ) (orders : ℕ → ℕ → List ℕ) :
    (shuffle_with_constraint bid trials choice orders).length = trials.length ∧
    ((shuffle_with_constraint bid trials choice orders : List τ) : Multiset τ) =
      (trials : Multiset τ) := by
  have hp : List.Perm (shuffle_with_constraint bid trials choice orders) trials :=
    (swcLoop_perm bid orders 50 0 _).trans (shuffleList_perm choice trials)
  exact ⟨hp.length_eq, Multiset.coe_eq_coe.mpr hp⟩

end Bundle

namespace Scrambler

/-! ### Order-statistic histogram matching (claims C1, C9, and the
histogram stage of C4) -/

variable {α : Type*} [LinearOrderedField α]

theorem mem_sortedUnique {l : List α} {a : α} : a ∈ sortedUnique l ↔ a ∈ l := by
  unfold sortedUnique
  rw [List.mem_dedup, List.mem_insertionSort]

theorem nodup_sortedUnique (l : List α) : (sortedUnique l).Nodup :=
  List.nodup_dedup _

theorem sorted_lt_sortedUnique (l : List α) : (sortedUnique l).Sorted (· < ·) := by
  unfold sortedUnique
  refine List.Sorted.lt_of_le ?_ (List.nodup_dedup _)
  exact (List.sorted_insertionSort _ l).sublist (List.dedup_sublist _)

theorem cumsum_length (cl : List ℕ) : (cumsum cl).length = cl.length := by
  induction cl with
  | nil => rfl
  | cons a rest ih => simp [cumsum, ih]

theorem cumsum_pos {cl : List ℕ} (h : ∀ c ∈ cl, 0 < c) :
    ∀ d ∈ cumsum cl, 0 < d := by
  induction cl with
  | nil => intro d hd; simp [cumsum] at hd
  | cons a rest ih =>
    intro d hd
    simp only [cumsum, List.mem_cons, List.mem_map] at hd
    rcases hd with rfl | ⟨e, he, rfl⟩
    · exact h d (by simp)
    · have := h a (by simp)
      omega

theorem cumsum_sorted_lt {cl : List ℕ} (h : ∀ c ∈ cl, 0 < c) :
    (cumsum cl).Sorted (· < ·) := by
  induction cl with
  | nil => simp [cumsum]
  | cons a rest ih =>
    have hrest : ∀ c ∈ rest, 0 < c := fun c hc => h c (List.mem_cons_of_mem _ hc)
    simp only [cumsum, List.sorted_cons]
    constructor
    · intro b hb
      simp only [List.mem_map] at hb
      obtain ⟨e, he, rfl⟩ := hb
      have := cumsum_pos hrest e he
      omega
    · refine List.Pairwise.map _ ?_ (ih hrest)
      intro x y hxy
      omega

theorem uniqueCounts_pos (l : List α) : ∀ c ∈ uniqueCounts l, 0 < c := by
  intro c hc
  unfold uniqueCounts at hc
  obtain ⟨v, hv, rfl⟩ := List.mem_map.mp hc
  exact List.count_pos_iff.mpr (mem_sortedUnique.mp hv)

theorem quantileList_length (l : List α) :
    (quantileList l).length = (sortedUnique l).length := by
  unfold quantileList uniqueCounts
  rw [List.length_map, cumsum_length, List.length_map]

theorem quantileList_sorted_lt {l : List α} (hl : l ≠ []) :
    (quantileList l).Sorted (· < ·) := by
  have hN : (0 : α) < (l.length : α) := by
    have : 0 < l.length := List.length_pos.mpr hl
    exact_mod_cast this
  unfold quantileList
  refine List.Pairwise.map _ ?_ (cumsum_sorted_lt (uniqueCounts_pos l))
  intro x y hxy
  exact div_lt_div_of_pos_right (by exact_mod_cast hxy) hN

/-- `np.interp` evaluated exactly at the `k`-th node returns the `k`-th
ordinate. -/
theorem interp_get (xp fp : List α) (hs : xp.Sorted (· < ·))
    (hlen : xp.length = fp.length) (k : ℕ) (hk : k < xp.length) :
    interp (xp.get ⟨k, hk⟩) xp fp = fp.get ⟨k, hlen ▸ hk⟩ := by
  induction xp generalizing fp k with
  | nil => exact absurd hk (by simp)
  | cons x0 xs ih =>
    cases fp with
    | nil => exact absurd hlen (by simp)
    | cons f0 fs =>
      cases xs with
      | nil =>
        have hk0 : k = 0 := by
          have : k < 1 := by simpa using hk
          omega
        subst hk0
        simp [interp]
      | cons x1 xs2 =>
        cases fs with
        | nil => exact absurd hlen (by simp)
        | cons f1 fs2 =>
          have h01 : x0 < x1 := (List.sorted_cons.mp hs).1 x1 (by simp)
          have hstail : (x1 :: xs2).Sorted (· < ·) := (List.sorted_cons.mp hs).2
          match k with
          | 0 =>
            have hx : (x0 :: x1 :: xs2).get ⟨0, hk⟩ = x0 := rfl
            rw [hx]
            simp only [interp]
            rw [if_pos le_rfl]
            rfl
          | 1 =>
            have hne : x1 - x0 ≠ 0 := sub_ne_zero.mpr (ne_of_gt h01)
            have hx : (x0 :: x1 :: xs2).get ⟨1, hk⟩ = x1 := rfl
            rw [hx]
            simp only [interp]
            rw [if_neg (not_le.mpr h01), if_pos le_rfl]
            show f0 + (x1 - x0) * (f1 - f0) / (x1 - x0) = f1
            rw [mul_comm, mul_div_assoc, div_self hne, mul_one]
            ring
          | (j + 2) =>
            have hkt : j + 1 < (x1 :: xs2).length := by simpa using hk
            have hx : (x0 :: x1 :: xs2).get ⟨j + 2, hk⟩ =
                (x1 :: xs2).get ⟨j + 1, hkt⟩ := rfl
            have hlt1 : x1 < (x1 :: xs2).get ⟨j + 1, hkt⟩ := by
              have h := @List.Sorted.rel_get_of_lt α (· < ·) (x1 :: xs2) hstail
                ⟨0, by simp⟩ ⟨j + 1, hkt⟩ (by simp [Fin.lt_def])
              simpa using h
            have hlt0 : x0 < (x1 :: xs2).get ⟨j + 1, hkt⟩ := h01.trans hlt1
            rw [hx]
            simp only [interp]
            rw [if_neg (not_le.mpr hlt0), if_neg (not_le.mpr hlt1)]
            have hrec := ih (f1 :: fs2) hstail (by simpa using hlen) (j + 1) hkt
            rw [hrec]
            rfl

/-- `np.interp` output is bounded by any uniform bounds on the ordinates,
for strictly increasing nodes. -/
theorem interp_bounds (xp fp : List α) (hs : xp.Sorted (· < ·))
    (hlen : xp.length = fp.length) (hfp : fp ≠ []) {lo hi : α}
    (hlo : ∀ f ∈ fp, lo ≤ f) (hhi : ∀ f ∈ fp, f ≤ hi) (x : α) :
    lo ≤ interp x xp fp ∧ interp x xp fp ≤ hi := by
  induction xp generalizing fp with
  | nil =>
    exact absurd (List.length_eq_zero.mp hlen.symm) hfp
  | cons x0 xs ih =>
    cases fp with
    | nil => exact absurd rfl hfp
    | cons f0 fs =>
      have hf0 : lo ≤ f0 ∧ f0 ≤ hi := ⟨hlo f0 (by simp), hhi f0 (by simp)⟩
      cases xs with
      | nil =>
        constructor <;> · simp only [interp]; split <;> simp [hf0.1, hf0.2]
      | cons x1 xs2 =>
        cases fs with
        | nil => exact absurd hlen (by simp)
        | cons f1 fs2 =>
          have h01 : x0 < x1 := (List.sorted_cons.mp hs).1 x1 (by simp)
          have hf1 : lo ≤ f1 ∧ f1 ≤ hi := ⟨hlo f1 (by simp), hhi f1 (by simp)⟩
          by_cases hc0 : x ≤ x0
          · simp only [interp, if_pos hc0]
            exact hf0
          · by_cases hc1 : x ≤ x1
            · simp only [interp, if_neg hc0, if_pos hc1]
              have hx0 : x0 < x := not_le.mp hc0
              have hd : (0 : α) < x1 - x0 := by linarith
              have ht0 : 0 ≤ (x - x0) / (x1 - x0) :=
                div_nonneg (by linarith) (le_of_lt hd)
              have ht1 : (x - x0) / (x1 - x0) ≤ 1 :=
                (div_le_one hd).mpr (by linarith)
              have hval : f0 + (x - x0) * (f1 - f0) / (x1 - x0) =
                  f0 + ((x - x0) / (x1 - x0)) * (f1 - f0) := by ring
              rw [hval]
              set t := (x - x0) / (x1 - x0) with ht
              constructor
              · nlinarith [mul_nonneg (by linarith : (0:α) ≤ 1 - t)
                  (by linarith : (0:α) ≤ f0 - lo),
                  mul_nonneg ht0 (by linarith : (0:α) ≤ f1 - lo)]
              · nlinarith [mul_nonneg (by linarith : (0:α) ≤ 1 - t)
                  (by linarith : (0:α) ≤ hi - f0),
                  mul_nonneg ht0 (by linarith : (0:α) ≤ hi - f1)]
            · simp only [interp, if_neg hc0, if_neg hc1]
              exact ih (f1 :: fs2) ((List.sorted_cons.mp hs).2)
                (by simpa using hlen) (by simp)
                (fun f hf => hlo f (List.mem_cons_of_mem _ hf))
                (fun f hf => hhi f (List.mem_cons_of_mem _ hf))

end Scrambler

namespace Scrambler

variable {α : Type*} [LinearOrderedField α]

/-- `hist_match_channel` with its `let`-bindings unfolded. -/
theorem hist_match_channel_def (src tmpl : List α) :
    hist_match_channel src tmpl =
      src.map fun x =>
        ((quantileList src).map fun q =>
          interp q (quantileList tmpl) (sortedUnique tmpl)).getD
            ((sortedUnique src).indexOf x) 0 := rfl

/-- Interpolating a template's own quantiles against its own nodes gives
back its sorted distinct values. -/
theorem map_interp_quantiles (tmpl : List α) (hne : tmpl ≠ []) :
    ((quantileList tmpl).map fun q =>
      interp q (quantileList tmpl) (sortedUnique tmpl)) = sortedUnique tmpl := by
  have hsorted := quantileList_sorted_lt hne
  have hlen := quantileList_length tmpl
  apply List.ext_get
  · simp [hlen]
  · intro k h1 h2
    rw [List.get_map]
    exact interp_get _ _ hsorted hlen k _

/-- Matching a channel to itself is the identity (used by C4: with
`mix = 1` the scramble stage already returns the original channel data,
and the histogram step leaves it untouched). -/
theorem hist_match_channel_self (l : List α) : hist_match_channel l l = l := by
  rcases eq_or_ne l [] with rfl | hne
  · rfl
  · rw [hist_match_channel_def, map_interp_quantiles l hne]
    have hfix : ∀ x ∈ l, (sortedUnique l).getD ((sortedUnique l).indexOf x) 0 = x := by
      intro x hx
      have hmem : x ∈ sortedUnique l := mem_sortedUnique.mpr hx
      have hidx : (sortedUnique l).indexOf x < (sortedUnique l).length :=
        List.indexOf_lt_length.mpr hmem
      rw [List.getD_eq_get _ _ hidx]
      exact List.indexOf_get hidx
    rw [List.map_congr_left hfix]
    simp

theorem sortedUnique_of_nodup {l : List α} (h : l.Nodup) :
    sortedUnique l = l.insertionSort (· ≤ ·) := by
  unfold sortedUnique
  exact List.dedup_eq_self.mpr ((List.perm_insertionSort _ l).symm.nodup h)

theorem length_sortedUnique_of_nodup {l : List α} (h : l.Nodup) :
    (sortedUnique l).length = l.length := by
  rw [sortedUnique_of_nodup h, List.length_insertionSort]

theorem cumsum_replicate_one (n : ℕ) :
    cumsum (List.replicate n 1) = (List.range n).map (· + 1) := by
  induction n with
  | zero => rfl
  | succ m ih =>
    simp only [List.replicate_succ, cumsum, ih, List.range_succ_eq_map,
      List.map_cons, List.map_map]
    congr 1
    exact List.map_congr_left fun a _ => by simp [Function.comp]; omega

/-- For a duplicate-free list the quantile grid is `(k+1)/N`, `k < N`. -/
theorem quantileList_of_nodup {l : List α} (h : l.Nodup) :
    quantileList l =
      (List.range l.length).map fun (k : ℕ) => ((k + 1 : ℕ) : α) / (l.length : α) := by
  unfold quantileList uniqueCounts
  have hcounts : ((sortedUnique l).map fun v => l.count v) =
      List.replicate (sortedUnique l).length 1 := by
    refine List.eq_replicate_iff.mpr ⟨by simp, ?_⟩
    intro b hb
    obtain ⟨v, hv, rfl⟩ := List.mem_map.mp hb
    exact List.count_eq_one_of_mem h (mem_sortedUnique.mp hv)
  rw [hcounts, length_sortedUnique_of_nodup h, cumsum_replicate_one, List.map_map]
  rfl

/-- Histogram matching between duplicate-free equal-size channels returns
a permutation of the template. -/
theorem hist_match_channel_perm_of_nodup {src tmpl : List α}
    (h1 : src.Nodup) (h2 : tmpl.Nodup) (h3 : src.length = tmpl.length) :
    List.Perm (hist_match_channel src tmpl) tmpl := by
  rcases eq_or_ne tmpl [] with rfl | hne
  · have hsrc : src = [] := List.length_eq_zero.mp (by simpa using h3)
    subst hsrc
    exact List.Perm.nil
  · have hq : quantileList src = quantileList tmpl := by
      rw [quantileList_of_nodup h1, quantileList_of_nodup h2, h3]
    rw [hist_match_channel_def, hq, map_interp_quantiles tmpl hne]
    have hsvperm : List.Perm src (sortedUnique src) := by
      rw [sortedUnique_of_nodup h1]
      exact (List.perm_insertionSort _ src).symm
    have hsvnodup : (sortedUnique src).Nodup := nodup_sortedUnique src
    have hlsv : (sortedUnique src).length = src.length := length_sortedUnique_of_nodup h1
    have hltv : (sortedUnique tmpl).length = tmpl.length := length_sortedUnique_of_nodup h2
    have hmapeq : ((sortedUnique src).map fun x =>
        (sortedUnique tmpl).getD ((sortedUnique src).indexOf x) 0) = sortedUnique tmpl := by
      apply List.ext_get
      · simp [hlsv, hltv, h3]
      · intro k hka hkb
        rw [List.get_map]
        have hk : k < (sortedUnique src).length := by simpa using hka
        have hidx : (sortedUnique src).indexOf ((sortedUnique src).get ⟨k, hk⟩) = k :=
          List.get_indexOf hsvnodup ⟨k, hk⟩
        rw [hidx, List.getD_eq_get _ _ (by simpa using hkb)]
    have htvperm : List.Perm (sortedUnique tmpl) tmpl := by
      rw [sortedUnique_of_nodup h2]
      exact List.perm_insertionSort _ tmpl
    have hfin := hsvperm.map
      (fun x => (sortedUnique tmpl).getD ((sortedUnique src).indexOf x) 0)
    rw [hmapeq] at hfin
    exact hfin.trans htvperm

end Scrambler

namespace Scrambler

variable {α : Type*} [LinearOrderedField α]

/-- C1, counterexample: the histogram-matching step does NOT always
reproduce the template's value multiset, even for equal population sizes.
With pre-match channel data `[0, 1, 2, 3]` (four distinct values, as the
scrambled float channel generically has) and original channel
`[0, 0, 4, 4]` (repeated values, as an 8-bit-derived channel has), the
matched output sorts to `[0, 0, 2, 4]`, not to `[0, 0, 4, 4]`: the
quantile interpolation manufactures the value `2`, which occurs in
neither input. -/
theorem C1_hist_match_exact_counterexample :
    ((hist_match_channel ([0, 1, 2, 3] : List ℚ) [0, 0, 4, 4]).insertionSort (· ≤ ·) ≠
      ([0, 0, 4, 4] : List ℚ).insertionSort (· ≤ ·)) ∧
    ([0, 1, 2, 3] : List ℚ).length = ([0, 0, 4, 4] : List ℚ).length ∧
    (hist_match_channel ([0, 1, 2, 3] : List ℚ) [0, 0, 4, 4]).insertionSort (· ≤ ·) =
      [0, 0, 2, 4] := by
  have hsv : sortedUnique ([0, 1, 2, 3] : List ℚ) = [0, 1, 2, 3] := by
    norm_num [sortedUnique, List.insertionSort, List.orderedInsert, List.dedup,
      List.pwFilter]
  have htv : sortedUnique ([0, 0, 4, 4] : List ℚ) = [0, 4] := by
    norm_num [sortedUnique, List.insertionSort, List.orderedInsert, List.dedup,
      List.pwFilter]
  have hsq : quantileList ([0, 1, 2, 3] : List ℚ) = [1/4, 1/2, 3/4, 1] := by
    rw [quantileList, uniqueCounts, hsv]
    norm_num [List.count_cons, List.count_nil, cumsum]
  have htq : quantileList ([0, 0, 4, 4] : List ℚ) = [1/2, 1] := by
    rw [quantileList, uniqueCounts, htv]
    norm_num [List.count_cons, List.count_nil, cumsum]
  have hi1 : interp ((1:ℚ)/4) [1/2, 1] [0, 4] = 0 := by norm_num [interp]
  have hi2 : interp ((1:ℚ)/2) [1/2, 1] [0, 4] = 0 := by norm_num [interp]
  have hi3 : interp ((3:ℚ)/4) [1/2, 1] [0, 4] = 2 := by norm_num [interp]
  have hi4 : interp ((1:ℚ)) [1/2, 1] [0, 4] = 4 := by norm_num [interp]
  have heval : hist_match_channel ([0, 1, 2, 3] : List ℚ) [0, 0, 4, 4] = [0, 0, 2, 4] := by
    rw [hist_match_channel_def, hsv, htv, hsq, htq]
    simp only [List.map_cons, List.map_nil, hi1, hi2, hi3, hi4]
    norm_num [List.indexOf_cons_ne, List.indexOf_cons_self, List.getD]
  have hsortA : ([0, 0, 2, 4] : List ℚ).insertionSort (· ≤ ·) = [0, 0, 2, 4] := by
    norm_num [List.insertionSort, List.orderedInsert]
  have hsortB : ([0, 0, 4, 4] : List ℚ).insertionSort (· ≤ ·) = [0, 0, 4, 4] := by
    norm_num [List.insertionSort, List.orderedInsert]
  refine ⟨?_, rfl, ?_⟩
  · rw [heval, hsortA, hsortB]
    decide
  · rw [heval, hsortA]

/-- C1, amended: the histogram-matching step exactly reproduces the
original channel's value multiset — sorted output pixel values equal
sorted original pixel values — whenever the two equal-size channels each
contain no repeated value (for channels with repeated values the
quantile interpolation can produce values outside the original multiset,
as the counterexample shows). -/
theorem C1_hist_match_exact_amended (src tmpl : List α)
    (h1 : src.Nodup) (h2 : tmpl.Nodup) (h3 : src.length = tmpl.length) :
    (hist_match_channel src tmpl).insertionSort (· ≤ ·) =
      tmpl.insertionSort (· ≤ ·) := by
  have hperm : List.Perm ((hist_match_channel src tmpl).insertionSort (· ≤ ·))
      (tmpl.insertionSort (· ≤ ·)) :=
    ((List.perm_insertionSort _ _).trans
      (hist_match_channel_perm_of_nodup h1 h2 h3)).trans
      (List.perm_insertionSort _ tmpl).symm
  exact List.eq_of_perm_of_sorted hperm
    (List.sorted_insertionSort _ _) (List.sorted_insertionSort _ _)

/-- C1, witness for the amended theorem: duplicate-free channels
`[2, 1]` matched to `[3, 4]` give exactly the multiset `{3, 4}`. -/
theorem C1_hist_match_exact_amended_witness :
    ([2, 1] : List ℚ).Nodup ∧ ([3, 4] : List ℚ).Nodup ∧
    ([2, 1] : List ℚ).length = ([3, 4] : List ℚ).length ∧
    (hist_match_channel ([2, 1] : List ℚ) ([3, 4])).insertionSort (· ≤ ·) =
      ([3, 4] : List ℚ).insertionSort (· ≤ ·) :=
  ⟨by decide, by decide, rfl,
    C1_hist_match_exact_amended [2, 1] [3, 4] (by decide) (by decide) rfl⟩

/-- C9: every value `hist_match_channel` returns is an interpolation
between (or a clamp to) template values, so it respects every uniform
bound on the template; in particular a template inside `[0,1]` yields a
matched channel inside `[0,1]`, on which the subsequent `np.clip` is the
identity. -/
theorem C9_hist_match_bounded (src tmpl : List α) (hne : tmpl ≠ []) :
    (∀ lo hi : α, (∀ t ∈ tmpl, lo ≤ t) → (∀ t ∈ tmpl, t ≤ hi) →
      ∀ y ∈ hist_match_channel src tmpl, lo ≤ y ∧ y ≤ hi) ∧
    ((∀ t ∈ tmpl, 0 ≤ t ∧ t ≤ 1) →
      (hist_match_channel src tmpl).map clip01 = hist_match_channel src tmpl) := by
  have hcore : ∀ lo hi : α, (∀ t ∈ tmpl, lo ≤ t) → (∀ t ∈ tmpl, t ≤ hi) →
      ∀ y ∈ hist_match_channel src tmpl, lo ≤ y ∧ y ≤ hi := by
    intro lo hi hlo hhi y hy
    rw [hist_match_channel_def] at hy
    obtain ⟨x, hx, rfl⟩ := List.mem_map.mp hy
    have hxs : x ∈ sortedUnique src := mem_sortedUnique.mpr hx
    have hidx : (sortedUnique src).indexOf x < (sortedUnique src).length :=
      List.indexOf_lt_length.mpr hxs
    have hlenq : ((quantileList src).map fun q =>
        interp q (quantileList tmpl) (sortedUnique tmpl)).length =
        (sortedUnique src).length := by
      rw [List.length_map, quantileList_length]
    rw [List.getD_eq_get _ _ (by rw [hlenq]; exact hidx), List.get_map]
    have htvne : sortedUnique tmpl ≠ [] := by
      obtain ⟨t, ht⟩ := List.exists_mem_of_ne_nil tmpl hne
      exact List.ne_nil_of_mem (mem_sortedUnique.mpr ht)
    refine interp_bounds _ _ (quantileList_sorted_lt hne) (quantileList_length tmpl)
      htvne ?_ ?_ _
    · intro f hf
      exact hlo f (mem_sortedUnique.mp hf)
    · intro f hf
      exact hhi f (mem_sortedUnique.mp hf)
  refine ⟨hcore, fun h01 => ?_⟩
  have hbd := hcore 0 1 (fun t ht => (h01 t ht).1) (fun t ht => (h01 t ht).2)
  have : ∀ y ∈ hist_match_channel src tmpl, clip01 y = y := by
    intro y hy
    obtain ⟨hy0, hy1⟩ := hbd y hy
    unfold clip01
    rw [min_eq_right hy1, max_eq_right hy0]
  rw [List.map_congr_left this]
  simp

/-- C9, witness: template `[0, 1]`, source `[5]`. -/
theorem C9_hist_match_bounded_witness :
    (([0, 1] : List ℚ) ≠ []) ∧
    ((∀ lo hi : ℚ, (∀ t ∈ ([0, 1] : List ℚ), lo ≤ t) → (∀ t ∈ ([0, 1] : List ℚ), t ≤ hi) →
      ∀ y ∈ hist_match_channel ([5] : List ℚ) [0, 1], lo ≤ y ∧ y ≤ hi) ∧
    ((∀ t ∈ ([0, 1] : List ℚ), 0 ≤ t ∧ t ≤ 1) →
      (hist_match_channel ([5] : List ℚ) [0, 1]).map clip01 =
        hist_match_channel ([5] : List ℚ) [0, 1])) :=
  ⟨by decide, C9_hist_match_bounded [5] [0, 1] (by decide)⟩

end Scrambler

namespace Scrambler

/-! ### The discrete Fourier transform pair (claims C2, C4) -/

/-- The `N`-th root of unity `e^{2πi d / N}` is `1` only when `N ∣ d`;
for `|d| < N` and `d ≠ 0` it is not `1`. -/
theorem exp_root_ne_one {N : ℕ} (hN : 0 < N) {d : ℤ} (hd0 : d ≠ 0)
    (hdabs : d.natAbs < N) :
    Complex.exp (2 * (Real.pi : ℂ) * Complex.I * d / N) ≠ 1 := by
  intro h
  rw [Complex.exp_eq_one_iff] at h
  obtain ⟨n, hn⟩ := h
  have hNne : (N : ℂ) ≠ 0 := Nat.cast_ne_zero.mpr hN.ne'
  have hpiIne : (2 * (Real.pi : ℂ) * Complex.I) ≠ 0 := by
    refine mul_ne_zero (mul_ne_zero two_ne_zero ?_) Complex.I_ne_zero
    exact Complex.ofReal_ne_zero.mpr Real.pi_ne_zero
  have hdiv : (d : ℂ) / N = n := by
    calc (d : ℂ) / N
        = (2 * (Real.pi : ℂ) * Complex.I * d / N) / (2 * (Real.pi : ℂ) * Complex.I) := by
          field_simp
          ring
      _ = ((n : ℂ) * (2 * (Real.pi : ℂ) * Complex.I)) / (2 * (Real.pi : ℂ) * Complex.I) := by
          rw [hn]
      _ = n := by field_simp
  have hdC : (d : ℂ) = ((n * N : ℤ) : ℂ) := by
    push_cast
    rw [← hdiv]
    field_simp
  have hdZ : d = n * N := by exact_mod_cast hdC
  rcases eq_or_ne n 0 with rfl | hn0
  · simp at hdZ
    exact hd0 hdZ
  · have h1 : 1 ≤ n.natAbs := Int.natAbs_pos.mpr hn0
    have : d.natAbs = n.natAbs * N := by
      rw [hdZ, Int.natAbs_mul, Int.natAbs_ofNat]
    nlinarith [hdabs, this]

/-- Geometric-sum orthogonality of the `N`-th roots of unity. -/
theorem sum_exp_root (N : ℕ) (hN : 0 < N) (d : ℤ) (hdabs : d.natAbs < N) :
    ∑ k ∈ Finset.range N,
        Complex.exp (2 * (Real.pi : ℂ) * Complex.I * k * d / N) =
      if d = 0 then (N : ℂ) else 0 := by
  by_cases hd : d = 0
  · subst hd
    simp
  · rw [if_neg hd]
    have hterm : ∀ k ∈ Finset.range N,
        Complex.exp (2 * (Real.pi : ℂ) * Complex.I * k * d / N) =
          Complex.exp (2 * (Real.pi : ℂ) * Complex.I * d / N) ^ k := by
      intro k _
      rw [← Complex.exp_nat_mul]
      congr 1
      ring
    rw [Finset.sum_congr rfl hterm,
      geom_sum_eq (exp_root_ne_one hN hd hdabs)]
    have hpow : Complex.exp (2 * (Real.pi : ℂ) * Complex.I * d / N) ^ N = 1 := by
      rw [← Complex.exp_nat_mul]
      have hNne : (N : ℂ) ≠ 0 := Nat.cast_ne_zero.mpr hN.ne'
      have harg : (N : ℂ) * (2 * (Real.pi : ℂ) * Complex.I * d / N) =
          (d : ℂ) * (2 * (Real.pi : ℂ) * Complex.I) := by
        field_simp
        ring
      rw [harg]
      exact Complex.exp_int_mul_two_pi_mul_I d
    rw [hpow]
    simp

/-- The `Fin`-indexed form of the orthogonality relation. -/
theorem sum_exp_root_fin (N : ℕ) (hN : 0 < N) (m p : Fin N) :
    ∑ k : Fin N,
        Complex.exp (2 * (Real.pi : ℂ) * Complex.I * (k.val : ℂ) *
          ((m.val : ℂ) - (p.val : ℂ)) / N) =
      if m = p then (N : ℂ) else 0 := by
  have hdabs : ((m.val : ℤ) - (p.val : ℤ)).natAbs < N := by
    have hm := m.isLt
    have hp := p.isLt
    omega
  have h := sum_exp_root N hN ((m.val : ℤ) - (p.val : ℤ)) hdabs
  have hc : ((((m.val : ℤ) - (p.val : ℤ)) : ℤ) : ℂ) = (m.val : ℂ) - (p.val : ℂ) := by
    push_cast
    ring
  rw [hc] at h
  rw [Fin.sum_univ_eq_sum_range
    (fun k => Complex.exp (2 * (Real.pi : ℂ) * Complex.I * (k : ℂ) *
      ((m.val : ℂ) - (p.val : ℂ)) / N)), h]
  have hiff : ((m.val : ℤ) - (p.val : ℤ) = 0) ↔ (m = p) := by
    rw [Fin.ext_iff]
    omega
  by_cases hmp : m = p
  · rw [if_pos hmp, if_pos (hiff.mpr hmp)]
  · rw [if_neg hmp, if_neg (fun h0 => hmp (hiff.mp h0))]

/-- Exchange of two nested double sums. -/
theorem sum4_swap {A B C D M : Type*} [Fintype A] [Fintype B] [Fintype C]
    [Fintype D] [AddCommMonoid M] (f : A → B → C → D → M) :
    ∑ a, ∑ b, ∑ c, ∑ d, f a b c d = ∑ c, ∑ d, ∑ a, ∑ b, f a b c d := by
  calc ∑ a, ∑ b, ∑ c, ∑ d, f a b c d
      = ∑ a, ∑ c, ∑ b, ∑ d, f a b c d :=
        Finset.sum_congr rfl fun a _ => Finset.sum_comm
    _ = ∑ c, ∑ a, ∑ b, ∑ d, f a b c d := Finset.sum_comm
    _ = ∑ c, ∑ a, ∑ d, ∑ b, f a b c d :=
        Finset.sum_congr rfl fun c _ =>
          Finset.sum_congr rfl fun a _ => Finset.sum_comm
    _ = ∑ c, ∑ d, ∑ a, ∑ b, f a b c d :=
        Finset.sum_congr rfl fun c _ => Finset.sum_comm

/-- Fourier inversion for the embedded transform pair:
`ifft2 (fft2 x) = x` (exact arithmetic). -/
theorem ifft2_fft2 (H W : ℕ) (hH : 0 < H) (hW : 0 < W)
    (x : Fin H → Fin W → ℂ) (m : Fin H) (n : Fin W) :
    ifft2 H W (fft2 H W x) m n = x m n := by
  have hHne : (H : ℂ) ≠ 0 := Nat.cast_ne_zero.mpr hH.ne'
  have hWne : (W : ℂ) ≠ 0 := Nat.cast_ne_zero.mpr hW.ne'
  unfold ifft2 fft2
  have hcomb : ∀ (k : Fin H) (l : Fin W) (p : Fin H) (q : Fin W),
      x p q * Complex.exp (-(2 * (Real.pi : ℂ) * Complex.I) *
          ((k.val : ℂ) * (p.val : ℂ) / (H : ℂ) + (l.val : ℂ) * (q.val : ℂ) / (W : ℂ))) *
        Complex.exp ((2 * (Real.pi : ℂ) * Complex.I) *
          ((k.val : ℂ) * (m.val : ℂ) / (H : ℂ) + (l.val : ℂ) * (n.val : ℂ) / (W : ℂ))) =
      x p q *
        (Complex.exp (2 * (Real.pi : ℂ) * Complex.I * (k.val : ℂ) *
          ((m.val : ℂ) - (p.val : ℂ)) / H) *
        Complex.exp (2 * (Real.pi : ℂ) * Complex.I * (l.val : ℂ) *
          ((n.val : ℂ) - (q.val : ℂ)) / W)) := by
    intro k l p q
    rw [mul_assoc, ← Complex.exp_add, ← Complex.exp_add]
    congr 2
    field_simp
    ring
  calc (1 / ((H : ℂ) * (W : ℂ))) * ∑ k : Fin H, ∑ l : Fin W,
        (∑ p : Fin H, ∑ q : Fin W,
          x p q * Complex.exp (-(2 * (Real.pi : ℂ) * Complex.I) *
            ((k.val : ℂ) * (p.val : ℂ) / (H : ℂ) + (l.val : ℂ) * (q.val : ℂ) / (W : ℂ)))) *
          Complex.exp ((2 * (Real.pi : ℂ) * Complex.I) *
            ((k.val : ℂ) * (m.val : ℂ) / (H : ℂ) + (l.val : ℂ) * (n.val : ℂ) / (W : ℂ)))
      = (1 / ((H : ℂ) * (W : ℂ))) * ∑ k : Fin H, ∑ l : Fin W,
          ∑ p : Fin H, ∑ q : Fin W,
            x p q *
              (Complex.exp (2 * (Real.pi : ℂ) * Complex.I * (k.val : ℂ) *
                ((m.val : ℂ) - (p.val : ℂ)) / H) *
              Complex.exp (2 * (Real.pi : ℂ) * Complex.I * (l.val : ℂ) *
                ((n.val : ℂ) - (q.val : ℂ)) / W)) := by
        congr 1
        refine Finset.sum_congr rfl fun k _ => Finset.sum_congr rfl fun l _ => ?_
        rw [Finset.sum_mul]
        refine Finset.sum_congr rfl fun p _ => ?_
        rw [Finset.sum_mul]
        exact Finset.sum_congr rfl fun q _ => hcomb k l p q
    _ = (1 / ((H : ℂ) * (W : ℂ))) * ∑ p : Fin H, ∑ q : Fin W,
          ∑ k : Fin H, ∑ l : Fin W,
            x p q *
              (Complex.exp (2 * (Real.pi : ℂ) * Complex.I * (k.val : ℂ) *
                ((m.val : ℂ) - (p.val : ℂ)) / H) *
              Complex.exp (2 * (Real.pi : ℂ) * Complex.I * (l.val : ℂ) *
                ((n.val : ℂ) - (q.val : ℂ)) / W)) := by
        rw [sum4_swap]
    _ = (1 / ((H : ℂ) * (W : ℂ))) * ∑ p : Fin H, ∑ q : Fin W,
          x p q *
            ((∑ k : Fin H, Complex.exp (2 * (Real.pi : ℂ) * Complex.I * (k.val : ℂ) *
              ((m.val : ℂ) - (p.val : ℂ)) / H)) *
            (∑ l : Fin W, Complex.exp (2 * (Real.pi : ℂ) * Complex.I * (l.val : ℂ) *
              ((n.val : ℂ) - (q.val : ℂ)) / W))) := by
        congr 1
        refine Finset.sum_congr rfl fun p _ => Finset.sum_congr rfl fun q _ => ?_
        rw [Finset.sum_mul_sum]
        rw [Finset.mul_sum]
        exact Finset.sum_congr rfl fun k _ => by rw [Finset.mul_sum]
    _ = (1 / ((H : ℂ) * (W : ℂ))) * ∑ p : Fin H, ∑ q : Fin W,
          x p q * ((if m = p then (H : ℂ) else 0) * (if n = q then (W : ℂ) else 0)) := by
        congr 1
        refine Finset.sum_congr rfl fun p _ => Finset.sum_congr rfl fun q _ => ?_
        rw [sum_exp_root_fin H hH m p, sum_exp_root_fin W hW n q]
    _ = x m n := by
        rw [Finset.sum_eq_single m]
        · rw [if_pos rfl]
          rw [Finset.sum_eq_single n]
          · rw [if_pos rfl]
            field_simp
          · intro q _ hq
            rw [if_neg fun h => hq h.symm]
            ring
          · intro hn
            exact absurd (Finset.mem_univ n) hn
        · intro p _ hp
          refine Finset.sum_eq_zero fun q _ => ?_
          rw [if_neg fun h => hp h.symm]
          ring
        · intro hm
          exact absurd (Finset.mem_univ m) hm

end Scrambler

namespace Scrambler

variable {α : Type*} [LinearOrderedField α]

/-- `scrambleChannel` with its `let`-bindings unfolded. -/
theorem scrambleChannel_def (H W : ℕ) (x : Fin H → Fin W → ℝ)
    (phi_rand : Fin H → Fin W → ℝ) (alpha : ℝ) (m : Fin H) (n : Fin W) :
    scrambleChannel H W x phi_rand alpha m n =
      (ifft2 H W (fun k l =>
        ((Complex.abs (fft2 H W (fun a b => (x a b : ℂ)) k l) : ℝ) : ℂ) *
          Complex.exp (((wrap_phase (alpha *
              Complex.arg (fft2 H W (fun a b => (x a b : ℂ)) k l) +
            (1 - alpha) * phi_rand k l) : ℝ) : ℂ) * Complex.I)) m n).re := rfl

/-- At `mix = 1` the mixed phase leaves the spectrum unchanged: wrapping
only subtracts an integer multiple of `2π`, so
`A · e^{i·wrap(1·φ + 0·b)} = A · e^{iφ} = F` for `A = |F|`, `φ = arg F`. -/
theorem spectrum_at_alpha_one (F : ℂ) (b : ℝ) :
    ((Complex.abs F : ℝ) : ℂ) *
      Complex.exp (((wrap_phase (1 * Complex.arg F + (1 - 1) * b) : ℝ) : ℂ) *
        Complex.I) = F := by
  have harg : 1 * Complex.arg F + (1 - 1) * b = Complex.arg F := by ring
  rw [harg]
  have hwrap : wrap_phase (Complex.arg F) =
      Complex.arg F -
        2 * Real.pi * ((⌊(Complex.arg F + Real.pi) / (2 * Real.pi)⌋ : ℤ) : ℝ) := by
    unfold wrap_phase
    ring
  rw [hwrap]
  have hsplit : (((Complex.arg F -
      2 * Real.pi * ((⌊(Complex.arg F + Real.pi) / (2 * Real.pi)⌋ : ℤ) : ℝ)) : ℝ) : ℂ) *
        Complex.I =
      (Complex.arg F : ℂ) * Complex.I +
        ((-⌊(Complex.arg F + Real.pi) / (2 * Real.pi)⌋ : ℤ) : ℂ) *
          (2 * (Real.pi : ℂ) * Complex.I) := by
    push_cast
    ring
  rw [hsplit, Complex.exp_add, Complex.exp_int_mul_two_pi_mul_I, mul_one]
  exact Complex.abs_mul_exp_arg_mul_I F

/-- The scramble stage at `mix = 1` reconstructs the channel exactly. -/
theorem scrambleChannel_alpha_one (H W : ℕ) (hH : 0 < H) (hW : 0 < W)
    (x : Fin H → Fin W → ℝ) (phi_rand : Fin H → Fin W → ℝ) :
    scrambleChannel H W x phi_rand 1 = x := by
  funext m n
  rw [scrambleChannel_def]
  have hspec : (fun k l =>
      ((Complex.abs (fft2 H W (fun a b => (x a b : ℂ)) k l) : ℝ) : ℂ) *
        Complex.exp (((wrap_phase (1 *
            Complex.arg (fft2 H W (fun a b => (x a b : ℂ)) k l) +
          (1 - 1) * phi_rand k l) : ℝ) : ℂ) * Complex.I)) =
      fft2 H W (fun a b => (x a b : ℂ)) := by
    funext k l
    exact spectrum_at_alpha_one _ _
  rw [hspec, ifft2_fft2 H W hH hW]
  exact Complex.ofReal_re _

/-- `getD` into a flat-mapped list of constant-width blocks. -/
theorem flatMap_getD {β γ : Type*} (W : ℕ) (f : β → List γ)
    (hf : ∀ b, (f b).length = W) (d : γ) :
    ∀ (ms : List β) (i j : ℕ) (hi : i < ms.length), j < W →
      (ms.flatMap f).getD (i * W + j) d = (f (ms.get ⟨i, hi⟩)).getD j d := by
  intro ms
  induction ms with
  | nil => intro i j hi _; exact absurd hi (by simp)
  | cons b rest ih =>
    intro i j hi hj
    cases i with
    | zero =>
      have hjlen : j < (f b).length := by rw [hf b]; exact hj
      have h0 : 0 * W + j = j := by ring
      have hget : f ((b :: rest).get ⟨0, hi⟩) = f b := rfl
      rw [List.flatMap_cons, h0, hget,
        List.getD_append _ _ _ _ hjlen]
    | succ i2 =>
      have hi2 : i2 < rest.length := by simpa using hi
      have hoff : (i2 + 1) * W + j = (f b).length + (i2 * W + j) := by
        rw [hf b]
        ring
      have hget : f ((b :: rest).get ⟨i2 + 1, hi⟩) = f (rest.get ⟨i2, hi2⟩) := rfl
      rw [List.flatMap_cons, hoff, hget,
        List.getD_append_right _ _ _ _ (by omega)]
      have hsub : (f b).length + (i2 * W + j) - (f b).length = i2 * W + j := by omega
      rw [hsub]
      exact ih i2 j hi2 hj

/-- Reading the ravelled array back at `(m, n)` returns the `(m, n)`
sample: `reshape ∘ ravel = id`. -/
theorem ravel_getD {β : Type*} (H W : ℕ) (hW : 0 < W) (x : Fin H → Fin W → β)
    (d : β) (m : Fin H) (n : Fin W) :
    (ravel H W x).getD (m.val * W + n.val) d = x m n := by
  unfold ravel
  rw [flatMap_getD W (fun (a : Fin H) => (List.finRange W).map fun b => x a b)
    (fun a => by simp) d (List.finRange H) m.val n.val (by simp) n.isLt]
  rw [List.getD_eq_getElem _ _ (by simpa using n.isLt)]
  simp

/-- The 2-D histogram matcher is the identity when source and template
coincide. -/
theorem hist_match_channel2D_self (H W : ℕ) (hW : 0 < W)
    (y : Fin H → Fin W → α) : hist_match_channel2D H W y y = y := by
  funext m n
  unfold hist_match_channel2D
  rw [hist_match_channel_self, ravel_getD H W hW]

theorem clip01_of_mem {v : α} (h0 : 0 ≤ v) (h1 : v ≤ 1) : clip01 v = v := by
  unfold clip01
  rw [min_eq_right h1, max_eq_right h0]

/-- C4: with `mix = 1.0` the phase is unchanged (the spectrum fed to the
inverse transform equals the original transform `F` exactly — wrapping
shifts the angle only by whole turns), the scramble stage returns the
input channels exactly, and the full scramble–match–clip pipeline output
equals the input image, in exact arithmetic. -/
theorem C4_mix_one_identity (H W : ℕ) (hH : 0 < H) (hW : 0 < W)
    (x : Fin H → Fin W → Fin 3 → ℝ) (g : RngState)
    (hx : ∀ m n c, 0 ≤ x m n c ∧ x m n c ≤ 1) :
    (∀ (F : ℂ) (b : ℝ),
      ((Complex.abs F : ℝ) : ℂ) *
        Complex.exp (((wrap_phase (1 * Complex.arg F + (1 - 1) * b) : ℝ) : ℂ) *
          Complex.I) = F) ∧
    (phase_scramble_color_shared H W x 1 g).1 = x ∧
    (processImage H W x 1 g).1 = x := by
  refine ⟨spectrum_at_alpha_one, ?_, ?_⟩
  · funext m n c
    show scrambleChannel H W (fun a b => x a b c)
      ((rngUniformMatrix (-Real.pi) Real.pi H W g).1) 1 m n = x m n c
    rw [scrambleChannel_alpha_one H W hH hW]
  · funext m n c
    show clip01 (hist_match_channel2D H W
      (fun a b => (phase_scramble_color_shared H W x 1 g).1 a b c)
      (fun a b => x a b c) m n) = x m n c
    have hscr : (fun a b => (phase_scramble_color_shared H W x 1 g).1 a b c) =
        (fun a b => x a b c) := by
      funext a b
      show scrambleChannel H W (fun u v => x u v c)
        ((rngUniformMatrix (-Real.pi) Real.pi H W g).1) 1 a b = x a b c
      rw [scrambleChannel_alpha_one H W hH hW]
    rw [hscr, hist_match_channel2D_self H W hW]
    exact clip01_of_mem (hx m n c).1 (hx m n c).2

/-- C4, witness: the constant half-grey `1×1` image is a fixed point of
the pipeline at `mix = 1`. -/
theorem C4_mix_one_identity_witness :
    (∀ (F : ℂ) (b : ℝ),
      ((Complex.abs F : ℝ) : ℂ) *
        Complex.exp (((wrap_phase (1 * Complex.arg F + (1 - 1) * b) : ℝ) : ℂ) *
          Complex.I) = F) ∧
    (phase_scramble_color_shared 1 1 (fun _ _ _ => (1/2 : ℝ)) 1
      ⟨fun _ => 0, 0⟩).1 = (fun _ _ _ => (1/2 : ℝ)) ∧
    (processImage 1 1 (fun _ _ _ => (1/2 : ℝ)) 1 ⟨fun _ => 0, 0⟩).1 =
      (fun _ _ _ => (1/2 : ℝ)) :=
  C4_mix_one_identity 1 1 one_pos one_pos (fun _ _ _ => (1/2 : ℝ))
    ⟨fun _ => 0, 0⟩ (fun _ _ _ => ⟨one_half_pos.le, one_half_lt_one.le⟩)

end Scrambler

namespace Scrambler

/-- C2: the per-channel Fourier magnitude is NOT preserved by the channel
`phase_scramble_color_shared` returns.  Taking the real part of
`ifft2(A·e^{iφ_mix})` with a non-antisymmetric random phase field
symmetrizes the spectrum, which changes magnitudes.  Concretely: for the
2×2 image with a single white pixel at the origin (every original
magnitude is `A = 1`), `mix = 0`, and the reachable phase draw
`φ_rand = [[0, π/2], [0, 0]]` (unit variates `[1/2, 3/4, 1/2, 1/2]`), the
output channel's transform vanishes at frequency `(0,1)`: its magnitude
is `0` against original magnitude `1` — relative error `1`, far beyond
`10⁻³`.  This contradicts the function's own docstring ("Per-channel
amplitude preserved"), so the code, not the claim, is at fault. -/
theorem C2_amplitude_not_preserved :
    Complex.abs (fft2 2 2 (fun a b =>
      (((if a = 0 ∧ b = 0 then (1:ℝ) else 0) : ℝ) : ℂ)) 0 1) = 1 ∧
    Complex.abs (fft2 2 2 (fun m n =>
      (((phase_scramble_color_shared 2 2
          (fun a b (_ : Fin 3) => if a = 0 ∧ b = 0 then (1:ℝ) else 0) 0
          ⟨fun t => if t = 1 then 3/4 else 1/2, 0⟩).1 m n 0 : ℝ) : ℂ)) 0 1) = 0 := by
  have hF : ∀ k l : Fin 2, fft2 2 2 (fun a b =>
      (((if a = 0 ∧ b = 0 then (1:ℝ) else 0) : ℝ) : ℂ)) k l = 1 := by
    intro k l
    unfold fft2
    simp only [Fin.sum_univ_two, Fin.val_zero, Fin.val_one]
    norm_num
  have hphi : (rngUniformMatrix (-Real.pi) Real.pi 2 2
      ⟨fun t => if t = 1 then 3/4 else 1/2, 0⟩).1 =
      (fun i j => if i = 0 ∧ j = 1 then Real.pi / 2 else 0) := by
    funext i j
    unfold rngUniformMatrix
    fin_cases i <;> fin_cases j <;> norm_num <;> ring
  have hw0 : wrap_phase 0 = 0 :=
    wrap_phase_eq_self (by linarith [Real.pi_pos]) Real.pi_pos
  have hwh : wrap_phase (Real.pi / 2) = Real.pi / 2 :=
    wrap_phase_eq_self (by linarith [Real.pi_pos]) (by linarith [Real.pi_pos])
  have hexph : Complex.exp ((Real.pi : ℂ) / 2 * Complex.I) = Complex.I := by
    rw [show ((Real.pi : ℂ) / 2) = ((Real.pi / 2 : ℝ) : ℂ) by push_cast; ring]
    rw [Complex.exp_mul_I, ← Complex.ofReal_cos, ← Complex.ofReal_sin,
      Real.cos_pi_div_two, Real.sin_pi_div_two]
    simp
  have hGfun : (fun (k : Fin 2) (l : Fin 2) =>
      ((Complex.abs (fft2 2 2 (fun a b =>
          (((if a = 0 ∧ b = 0 then (1:ℝ) else 0) : ℝ) : ℂ)) k l) : ℝ) : ℂ) *
        Complex.exp (((wrap_phase ((0:ℝ) *
            Complex.arg (fft2 2 2 (fun a b =>
              (((if a = 0 ∧ b = 0 then (1:ℝ) else 0) : ℝ) : ℂ)) k l) +
          (1 - 0) * (if k = 0 ∧ l = 1 then Real.pi / 2 else 0)) : ℝ) : ℂ) *
          Complex.I)) =
      (fun k l => if k = 0 ∧ l = 1 then Complex.I else 1) := by
    funext k l
    rw [hF k l]
    by_cases hkl : k = 0 ∧ l = 1
    · rw [if_pos hkl, if_pos hkl]
      rw [Complex.arg_one]
      norm_num [hwh, hexph]
    · rw [if_neg hkl, if_neg hkl]
      rw [Complex.arg_one]
      norm_num [hw0]
  have hpiI : Complex.exp ((Real.pi:ℂ) * Complex.I) = -1 := Complex.exp_pi_mul_I
  have h2piI : Complex.exp (2 * (Real.pi:ℂ) * Complex.I) = 1 := Complex.exp_two_pi_mul_I
  have hhalf : Complex.exp (2 * (Real.pi:ℂ) * Complex.I * (1/2)) = -1 := by
    rw [show 2 * (Real.pi:ℂ) * Complex.I * (1/2) = (Real.pi:ℂ) * Complex.I by ring]
    exact hpiI
  have hout : (fun (m n : Fin 2) => (ifft2 2 2
      (fun k l => if k = 0 ∧ l = 1 then Complex.I else 1) m n).re) =
      (fun m n =>
        if m = 0 ∧ n = 0 then (3/4 : ℝ)
        else if m = 1 ∧ n = 0 then -(1/4)
        else 1/4) := by
    funext m n
    unfold ifft2
    fin_cases m <;> fin_cases n <;>
      · simp only [Fin.sum_univ_two, Fin.val_zero, Fin.val_one]
        norm_num [hpiI, h2piI, hhalf, Complex.ext_iff]
  have hchan : (fun (m n : Fin 2) =>
      (phase_scramble_color_shared 2 2
        (fun a b (_ : Fin 3) => if a = 0 ∧ b = 0 then (1:ℝ) else 0) 0
        ⟨fun t => if t = 1 then 3/4 else 1/2, 0⟩).1 m n 0) =
      (fun m n =>
        if m = 0 ∧ n = 0 then (3/4 : ℝ)
        else if m = 1 ∧ n = 0 then -(1/4)
        else 1/4) := by
    funext m n
    show scrambleChannel 2 2 (fun a b => if a = 0 ∧ b = 0 then (1:ℝ) else 0)
      ((rngUniformMatrix (-Real.pi) Real.pi 2 2
        ⟨fun t => if t = 1 then 3/4 else 1/2, 0⟩).1) 0 m n = _
    rw [hphi, scrambleChannel_def, hGfun]
    exact congrFun (congrFun hout m) n
  constructor
  · rw [hF 0 1]
    simp
  · have hcast : (fun (m n : Fin 2) =>
        (((phase_scramble_color_shared 2 2
            (fun a b (_ : Fin 3) => if a = 0 ∧ b = 0 then (1:ℝ) else 0) 0
            ⟨fun t => if t = 1 then 3/4 else 1/2, 0⟩).1 m n 0 : ℝ) : ℂ)) =
        (fun m n =>
          (((if m = 0 ∧ n = 0 then (3/4 : ℝ)
            else if m = 1 ∧ n = 0 then -(1/4)
            else 1/4) : ℝ) : ℂ)) := by
      funext m n
      rw [congrFun (congrFun hchan m) n]
    rw [hcast]
    have hneghalf : Complex.exp (-(2 * (Real.pi:ℂ) * Complex.I * (1/2))) = -1 := by
      rw [show -(2 * (Real.pi:ℂ) * Complex.I * (1/2)) =
        -((Real.pi:ℂ) * Complex.I) by ring]
      rw [Complex.exp_neg, hpiI]
      norm_num
    have hzero : fft2 2 2 (fun m n =>
        (((if m = 0 ∧ n = 0 then (3/4 : ℝ)
          else if m = 1 ∧ n = 0 then -(1/4)
          else 1/4) : ℝ) : ℂ)) 0 1 = 0 := by
      unfold fft2
      simp only [Fin.sum_univ_two, Fin.val_zero, Fin.val_one]
      norm_num [hneghalf, Complex.ext_iff]
    rw [hzero]
    simp

end Scrambler
